import Mathlib

/-!
Verification of the U-Boot UART MMC virtual-disk program
(src/u-boot-uart-mmc-vdisk.py) against its specification.

The Python source is shallowly embedded: bytes are lists of naturals,
the block cache is an association list (insertion prepends, lookup takes
the first hit — the observable behaviour of a Python dict), console
transcripts are lists of line strings, and Python exceptions become an
explicit error type threaded through `Except`.
-/

namespace Vdisk

/-- A byte string: each element is one byte value. -/
abbrev Bytes := List Nat

/-- The Python exceptions the program can raise. -/
inductive PyErr where
  /-- UnboundLocalError: a local variable referenced before assignment. -/
  | unboundLocal
  /-- ValueError, e.g. from a failing int() conversion. -/
  | valueError
  /-- TypeError, e.g. unhexlify applied to an odd-length string. -/
  | typeError
  /-- AttributeError: an instance attribute that was never assigned. -/
  | attributeError
  /-- RuntimeError with a fixed message. -/
  | runtimeError (msg : String)
  /-- RuntimeError raised as: Expected address 0x%x, got address 0x%x. -/
  | desync (expected actual : Nat)
  /-- FuseOSError carrying an errno value. -/
  | fuseOSError (errno : Nat)
  deriving DecidableEq

def ENOENT : Nat := 2
def EACCES : Nat := 13

/-- Lookup in the block cache / partition dict: first matching key wins. -/
def cacheLookup {α : Type} (c : List (Nat × α)) (k : Nat) : Option α :=
  match c with
  | [] => none
  | (k', v) :: rest => if k' = k then some v else cacheLookup rest k

/-- Bytes of contiguous device blocks start .. start+len-1, concatenated:
the content an ideal driver returns for a block-range read. -/
def devBytes (dev : Nat → Bytes) (s l : Nat) : Bytes :=
  ((List.range' s l).map dev).flatten

/-! ### Text scanning primitives (Python str / re semantics) -/

/-- The characters Python's regex class backslash-s and str.strip treat as
whitespace in byte strings. -/
def isPySpace (c : Char) : Bool :=
  c = ' ' || c = '\t' || c = '\n' || c = '\x0b' || c = '\x0c' || c = '\r'

/-- Length of the maximal whitespace prefix (what a greedy backslash-s-star
consumes first). -/
def wsPrefixLen (cs : List Char) : Nat := (cs.takeWhile isPySpace).length

/-- str.startswith on character lists. -/
def strStartsWith : List Char → List Char → Bool
  | [], _ => true
  | _ :: _, [] => false
  | a :: ps, b :: ss => a == b && strStartsWith ps ss

/-- Numeric value of a list of decimal digits. -/
def decimalVal (ds : List Char) : Nat :=
  ds.foldl (fun a c => a * 10 + (c.toNat - 48)) 0

/-- A lowercase hexadecimal digit, the class [0-9a-f]. -/
def hexDigit (c : Char) : Bool := c.isDigit || ('a' ≤ c && c ≤ 'f')

/-- Numeric value of one lowercase hex digit. -/
def hexCharVal (c : Char) : Nat :=
  if c.isDigit then c.toNat - 48 else c.toNat - 87

/-- Numeric value of a lowercase hex digit string. -/
def hexListVal (ds : List Char) : Nat :=
  ds.foldl (fun a c => a * 16 + hexCharVal c) 0

/-- Python 2 int(s): strip whitespace on both ends, optional single sign,
then a nonempty run of decimal digits; anything else is a ValueError
(modelled as none). -/
def pyParseInt (cs : List Char) : Option Int :=
  let t := ((cs.dropWhile isPySpace).reverse.dropWhile isPySpace).reverse
  match t with
  | [] => none
  | '+' :: ds =>
      if ds ≠ [] ∧ ds.all Char.isDigit then some (decimalVal ds : Nat) else none
  | '-' :: ds =>
      if ds ≠ [] ∧ ds.all Char.isDigit then some (-(decimalVal ds : Nat) : Int) else none
  | ds =>
      if ds ≠ [] ∧ ds.all Char.isDigit then some (decimalVal ds : Nat) else none

/-! ### Console protocol driver (read_mmc_partitions, read_mmc_blocks)

Console transcripts are the lists of lines `self.dev.readlines()` returns:
each line normally ends in a newline character (the last one may not).
-/

/-- One partition row as parsed from the partition listing. -/
structure Partition where
  number : Nat
  start : Nat
  length : Nat
  deriving DecidableEq

/-- True when a character-list suffix has a newline nowhere but (possibly)
its last position — the only shapes the regex tail can still match. -/
def noInteriorNewline (cs : List Char) : Bool := !(cs.dropLast.contains '\n')

/-- The tail of the partition-row regex after the third number:
backslash-s-plus followed by dot-star and end-of-line. Matches iff the
remainder starts with whitespace and, past the maximal whitespace prefix,
holds no newline except possibly as its final character. -/
def partTailOk (r : List Char) : Bool :=
  decide (1 ≤ wsPrefixLen r) && noInteriorNewline (r.drop (wsPrefixLen r))

/-- The regex applied to each line of the partition listing:
line-start, optional whitespace, then three whitespace-separated decimal
numbers, then whitespace and arbitrary trailing text. Returns the three
captured numbers. -/
def parsePartLine (s : String) : Option (Nat × Nat × Nat) :=
  let cs := s.data
  let r0 := cs.drop (wsPrefixLen cs)
  let d1 := r0.takeWhile Char.isDigit
  if d1.isEmpty then none else
  let r1 := r0.drop d1.length
  let w1 := wsPrefixLen r1
  if w1 = 0 then none else
  let r2 := r1.drop w1
  let d2 := r2.takeWhile Char.isDigit
  if d2.isEmpty then none else
  let r3 := r2.drop d2.length
  let w2 := wsPrefixLen r3
  if w2 = 0 then none else
  let r4 := r3.drop w2
  let d3 := r4.takeWhile Char.isDigit
  if d3.isEmpty then none else
  let r5 := r4.drop d3.length
  if partTailOk r5 then some (decimalVal d1, decimalVal d2, decimalVal d3) else none

/-- Scan the lines of the mmc info transcript: every line starting with
the block-size label overwrites block_size with int() of the digits of the
whole line; a matching line without digits is a ValueError. -/
def scanBlockSize : List String → Option Nat → Except PyErr (Option Nat)
  | [], acc => .ok acc
  | l :: rest, acc =>
    if strStartsWith ("Rd Block Len:".data) l.data then
      let ds := l.data.filter Char.isDigit
      if ds.isEmpty then .error .valueError
      else scanBlockSize rest (some (decimalVal ds))
    else scanBlockSize rest acc

/-- Build the partition dict from the mmc part transcript lines; insertion
prepends so that a later row with the same number shadows an earlier one,
as in a Python dict. -/
def buildParts : List String → List (Nat × Partition) → List (Nat × Partition)
  | [], acc => acc
  | l :: rest, acc =>
    match parsePartLine l with
    | some (n, s, le) => buildParts rest ((n, ⟨n, s, le⟩) :: acc)
    | none => buildParts rest acc

/-- read_mmc_partitions: discover the block size from the mmc info
transcript and the partition table from the mmc part transcript.
A never-assigned block_size is an AttributeError at the truthiness test;
a zero block_size or an empty partition dict is the RuntimeError the
source raises. -/
def read_mmc_partitions (lines1 lines2 : List String) :
    Except PyErr (Nat × List (Nat × Partition)) := do
  let obs ← scanBlockSize lines1 none
  match obs with
  | none => Except.error PyErr.attributeError
  | some 0 =>
      Except.error (PyErr.runtimeError "Could not initialize: no blocksize information found")
  | some (b + 1) =>
      let parts := buildParts lines2 []
      if parts.isEmpty then
        Except.error (PyErr.runtimeError "Could not initialize: no partition information found")
      else
        Except.ok (b + 1, parts)

/-- Character class of the hex-dump payload group: [0-9a-f ]. -/
def dumpChar (c : Char) : Bool := hexDigit c || c = ' '

/-- The tail of the dump-line regex after the 47-character payload group:
optional whitespace, then exactly 16 arbitrary non-newline characters,
then end-of-line (a lone trailing newline may follow). -/
def dumpTailOk (rest : List Char) : Bool :=
  (decide (16 ≤ rest.length) && (rest.take (rest.length - 16)).all isPySpace
     && (rest.drop (rest.length - 16)).all (fun c => c ≠ '\n'))
  || (decide (17 ≤ rest.length) && (rest.take (rest.length - 17)).all isPySpace
     && ((rest.drop (rest.length - 17)).take 16).all (fun c => c ≠ '\n')
     && rest.getLast? = some '\n')

/-- Try to place the 47-character payload group k characters after the
colon (the k skipped characters are whitespace already accounted for). -/
def dumpGroupAt (r : List Char) (k : Nat) : Option (List Char) :=
  let b := (r.drop k).take 47
  if b.length = 47 && b.all dumpChar && dumpTailOk (r.drop (k + 47)) then some b else none

/-- Greedy-with-backtracking choice of the payload position: the engine
first lets the whitespace star consume as much as possible, then gives
characters back one at a time. -/
def dumpGroupSearch (r : List Char) : Nat → Option (List Char)
  | 0 => dumpGroupAt r 0
  | k + 1 =>
    match dumpGroupAt r (k + 1) with
    | some b => some b
    | none => dumpGroupSearch r k

/-- The dump-line regex: eight lowercase hex digits, a colon, optional
whitespace, a 47-character run over [0-9a-f ], optional whitespace, and a
16-character human-readable column. Returns the parsed address and the
payload group. -/
def matchDumpLine (s : String) : Option (Nat × List Char) :=
  let cs := s.data
  if (cs.take 8).length = 8 && (cs.take 8).all hexDigit && cs.get? 8 == some ':' then
    let r := cs.drop 9
    (dumpGroupSearch r (wsPrefixLen r)).map (fun b => (hexListVal (cs.take 8), b))
  else none

/-- binascii.unhexlify: pairs of hex digits to bytes; an odd-length or
non-hex input is a TypeError (modelled as none). -/
def unhexlify : List Char → Option Bytes
  | [] => some []
  | [_] => none
  | a :: b :: rest =>
    if hexDigit a && hexDigit b then
      (unhexlify rest).map (fun t => (hexCharVal a * 16 + hexCharVal b) :: t)
    else none

/-- The line loop of read_mmc_blocks: skip non-matching lines; on a match,
check the address against the expected-next-address counter (raising the
desync RuntimeError on mismatch), append the payload hex digits with the
whitespace removed, and advance the counter by 0x10. -/
def rmbLoop : List String → Nat → List Char → Except PyErr (List Char)
  | [], _, blockdata => .ok blockdata
  | l :: rest, nextaddr, blockdata =>
    match matchDumpLine l with
    | none => rmbLoop rest nextaddr blockdata
    | some (thisaddr, g2) =>
      if thisaddr ≠ nextaddr then .error (.desync nextaddr thisaddr)
      else rmbLoop rest (nextaddr + 0x10) (blockdata ++ g2.filter (fun c => !(isPySpace c)))

/-- read_mmc_blocks: a zero-length request returns empty with no I/O;
otherwise parse the md.b transcript starting from the staging address
0x90000000, fail if no hex was collected, and decode the hex digits.
The source's start argument and the block size only shape the two command
strings written to the console; here the console's reply is the input, so
only the transcript lines and the length's zero test remain. -/
def read_mmc_blocks (lines : List String) (len : Nat) : Except PyErr Bytes :=
  if len = 0 then .ok []
  else
    match rmbLoop lines 0x90000000 [] with
    | .error e => .error e
    | .ok blockdata =>
      if blockdata.isEmpty then .error (.runtimeError "Could not read any memory output")
      else
        match unhexlify blockdata with
        | none => .error .typeError
        | some bytes => .ok bytes

/-! ### Block cache (read_and_cache_mmc_blocks, get_mmc_blocks)

For the cache layer the protocol driver is abstracted as a function
fetch start len giving the bytes read_mmc_blocks returns for that block
range, and the cache state records the calls issued to it.  -/

/-- The mutable state of the cache layer: the block cache and, for
reasoning about how many console round-trips occur, the list of
(start, length) fetches issued so far. -/
structure MmcState where
  cache : List (Nat × Bytes)
  fetchLog : List (Nat × Nat)
  deriving DecidableEq

/-- read_and_cache_mmc_blocks: fetch the range, then store each block's
slice read_data[(b-start)*bs : (b-start)*bs + bs] under key b. -/
def read_and_cache_mmc_blocks (bs : Nat) (fetch : Nat → Nat → Bytes)
    (st : MmcState) (start len : Nat) : MmcState × Bytes :=
  if len = 0 then (st, [])
  else
    let read_data := fetch start len
    ({ cache := (List.range' start len).foldl
          (fun c rb => (rb, (read_data.drop ((rb - start) * bs)).take bs) :: c) st.cache,
       fetchLog := st.fetchLog ++ [(start, len)] },
     read_data)

/-- The block scan of get_mmc_blocks. A cached block while a missing run
is pending trips the source's reference to the never-assigned local
toReturn: Python raises UnboundLocalError before any call is made, so the
scan aborts with no fetch and no cache change. Otherwise cached bytes are
appended and missing blocks extend the pending run. Returns the
accumulated bytes and the still-pending run start. -/
def getLoop (cache : List (Nat × Bytes)) :
    List Nat → Bytes → Option Nat → Except PyErr (Bytes × Option Nat)
  | [], to_return, read_start_block => .ok (to_return, read_start_block)
  | b :: rest, to_return, read_start_block =>
    match cacheLookup cache b with
    | some data =>
      match read_start_block with
      | some _ => .error .unboundLocal
      | none => getLoop cache rest (to_return ++ data) none
    | none =>
      match read_start_block with
      | some _ => getLoop cache rest to_return read_start_block
      | none => getLoop cache rest to_return (some b)

/-- get_mmc_blocks: scan the requested range against the cache and fetch
the missing run still pending after the scan. -/
def get_mmc_blocks (bs : Nat) (fetch : Nat → Nat → Bytes) (st : MmcState)
    (start len : Nat) : Except PyErr (MmcState × Bytes) :=
  if len = 0 then .ok (st, [])
  else
    match getLoop st.cache (List.range' start len) [] none with
    | .error e => .error e
    | .ok (to_return, some r) =>
      let res := read_and_cache_mmc_blocks bs fetch st r (start + len - r)
      .ok (res.1, to_return ++ res.2)
    | .ok (to_return, none) => .ok (st, to_return)

/-! ### Filesystem adapter (getattr, open, read) -/

def S_IFDIR : Nat := 0o040000
def S_IFREG : Nat := 0o100000
def O_RDONLY : Nat := 0
def O_WRONLY : Nat := 1
def O_RDWR : Nat := 2

/-- The stat dict getattr builds (the three time fields stay zero). -/
structure Stat where
  st_mode : Nat
  st_nlink : Nat
  st_size : Nat
  st_ctime : Nat
  st_mtime : Nat
  st_atime : Nat
  deriving DecidableEq

/-- The stat of the root directory. -/
def dirStat : Stat := ⟨S_IFDIR ||| 0o555, 2, 0, 0, 0, 0⟩

/-- The stat of a partition file of the given byte size. -/
def regStat (size : Nat) : Stat := ⟨S_IFREG ||| 0o444, 1, size, 0, 0, 0⟩

/-- Resolve a path the way getattr and read do: int(path[1:]) (ValueError
is caught and becomes ENOENT), then a membership test in the partition
dict. -/
def resolvePart (partitions : List (Nat × Partition)) (path : String) :
    Option Partition :=
  match pyParseInt (path.data.drop 1) with
  | none => none
  | some n =>
    match n with
    | Int.ofNat m => cacheLookup partitions m
    | Int.negSucc _ => none

/-- getattr: the root is a directory; any other path resolves through
int(path[1:]) and the partition dict, giving a regular file whose size is
length * block_size, or ENOENT. -/
def getattr (bs : Nat) (partitions : List (Nat × Partition)) (path : String) :
    Except PyErr Stat :=
  if path = "/" then .ok dirStat
  else
    match resolvePart partitions path with
    | none => .error (.fuseOSError ENOENT)
    | some part => .ok (regStat (part.length * bs))

/-- open: a write-capable access mode is EACCES before the handle counter
moves; otherwise the counter is incremented and returned. The path is
never looked at. Returns (new counter, handle). -/
def fuseOpen (path : String) (next_fd : Nat) (flags : Nat) :
    Except PyErr (Nat × Nat) :=
  let accmode := O_RDONLY ||| O_WRONLY ||| O_RDWR
  let _ := path
  if flags &&& accmode ≠ O_RDONLY then .error (.fuseOSError EACCES)
  else .ok (next_fd + 1, next_fd + 1)

/-- The block plan read computes for an in-range request: start block,
block count, offset into the first block, and byte count; none encodes the
early empty return at or past the end of the partition. -/
def read_plan (bs : Nat) (part : Partition) (size offset : Nat) :
    Option (Nat × Nat × Nat × Nat) :=
  if offset ≥ part.length * bs then none
  else
    let start_block := offset / bs + part.start
    let start_offset_from_block := offset % bs
    let end_byte := min (offset + size) (part.length * bs)
    let end_block := end_byte / bs + part.start
      + (if end_byte % bs > 0 then 1 else 0)
    some (start_block, end_block - start_block, start_offset_from_block,
          end_byte - offset)

/-- read, with the cache layer abstracted as the function get giving the
bytes get_mmc_blocks returns per (start block, block count) request:
resolve the path, return empty at or past the end of the partition, and
otherwise fetch the planned block range and slice it. -/
def read (bs : Nat) (partitions : List (Nat × Partition))
    (get : Nat → Nat → Bytes) (path : String) (size offset : Nat) :
    Except PyErr Bytes :=
  match resolvePart partitions path with
  | none => .error (.fuseOSError ENOENT)
  | some part =>
    match read_plan bs part size offset with
    | none => .ok []
    | some (start_block, block_length, start_offset_from_block, byte_length) =>
      .ok (((get start_block block_length).drop start_offset_from_block).take byte_length)

/-- read wired to the real stateful cache layer, as in the source. -/
def readS (bs : Nat) (fetch : Nat → Nat → Bytes)
    (partitions : List (Nat × Partition)) (st : MmcState)
    (path : String) (size offset : Nat) : Except PyErr (MmcState × Bytes) :=
  match resolvePart partitions path with
  | none => .error (.fuseOSError ENOENT)
  | some part =>
    match read_plan bs part size offset with
    | none => .ok (st, [])
    | some (start_block, block_length, start_offset_from_block, byte_length) =>
      match get_mmc_blocks bs fetch st start_block block_length with
      | .error e => .error e
      | .ok (st', block_data) =>
        .ok (st', (block_data.drop start_offset_from_block).take byte_length)

/-! ### Auxiliary definitions used by the theorems -/

/-- The bytes of the cached entries of a block list, concatenated. -/
def hitBytes (cache : List (Nat × Bytes)) (blocks : List Nat) : Bytes :=
  (blocks.map (fun b => (cacheLookup cache b).getD [])).flatten

/-- Replay a list of (start, length) block requests against the cache
layer, keeping the states of the successful calls (a raised exception
leaves the state as it was). -/
def runGets (bs : Nat) (fetch : Nat → Nat → Bytes) (st : MmcState) :
    List (Nat × Nat) → MmcState
  | [] => st
  | (s, l) :: rest =>
    match get_mmc_blocks bs fetch st s l with
    | .error _ => runGets bs fetch st rest
    | .ok (st', _) => runGets bs fetch st' rest

/-- Two logged fetches cover disjoint block ranges. -/
def fetchDisjoint (e1 e2 : Nat × Nat) : Prop :=
  ∀ b, b ∈ List.range' e1.1 e1.2 → b ∉ List.range' e2.1 e2.2

/-- A dump line at the staging address. -/
def dumpLine1 : String :=
  "90000000: 00 01 02 03 04 05 06 07 08 09 0a 0b 0c 0d 0e 0f    ................\n"

/-- A dump line 0x20 past the staging address (0x10 was expected next). -/
def dumpLine2 : String :=
  "90000020: 00 01 02 03 04 05 06 07 08 09 0a 0b 0c 0d 0e 0f    ................\n"

/-- Replay a list of (path, flags) open calls against the handle counter,
collecting the handles of the successful opens. -/
def runOpens (next_fd : Nat) : List (String × Nat) → Nat × List Nat
  | [] => (next_fd, [])
  | (p, f) :: rest =>
    match fuseOpen p next_fd f with
    | .error _ => runOpens next_fd rest
    | .ok (fd', h) =>
      let r := runOpens fd' rest
      (r.1, h :: r.2)

/-! ### Helper lemmas -/

theorem devBytes_length {dev : Nat → Bytes} {bs : Nat}
    (hdev : ∀ b, (dev b).length = bs) (s l : Nat) :
    (devBytes dev s l).length = l * bs := by
  induction l generalizing s with
  | zero => simp [devBytes]
  | succ n ih =>
    unfold devBytes at ih ⊢
    rw [List.range'_succ]
    simp only [List.map_cons, List.flatten_cons, List.length_append, hdev]
    rw [ih (s + 1), Nat.succ_mul]
    omega

theorem devBytes_append (dev : Nat → Bytes) (s a b : Nat) :
    devBytes dev s (a + b) = devBytes dev s a ++ devBytes dev (s + a) b := by
  unfold devBytes
  rw [← List.flatten_append, ← List.map_append]
  have h := List.range'_append s a b 1
  simp only [one_mul] at h
  rw [h, Nat.add_comm b a]

theorem slice_append_of_le {α : Type} (A B : List α) (j c : Nat)
    (h : j + c ≤ A.length) :
    ((A ++ B).drop j).take c = (A.drop j).take c := by
  rw [List.drop_append_eq_append_drop, Nat.sub_eq_zero_of_le (by omega), List.drop_zero,
    List.take_append_eq_append_take]
  have hlen : (A.drop j).length = A.length - j := List.length_drop j A
  rw [Nat.sub_eq_zero_of_le (by omega), List.take_zero, List.append_nil]

/-- Slicing a sub-range of blocks out of a longer block run gives the same
bytes as slicing the long run at the translated position. -/
theorem devBytes_slice {dev : Nat → Bytes} {bs : Nat}
    (hdev : ∀ b, (dev b).length = bs) (s k m L j c : Nat)
    (hk : k ≤ L) (hm : m ≤ L - k) (hjc : j + c ≤ m * bs) :
    ((devBytes dev (s + k) m).drop j).take c
      = ((devBytes dev s L).drop (k * bs + j)).take c := by
  obtain ⟨d, rfl⟩ : ∃ d, L = k + d := ⟨L - k, by omega⟩
  have hm' : m ≤ d := by omega
  rw [devBytes_append dev s k d]
  rw [← List.drop_drop]
  rw [← devBytes_length hdev s k, List.drop_left]
  obtain ⟨e, rfl⟩ : ∃ e, d = m + e := ⟨d - m, by omega⟩
  rw [devBytes_append dev (s + k) m e]
  exact (slice_append_of_le _ _ j c (by rw [devBytes_length hdev]; exact hjc)).symm

/-- Reassembling consecutive bs-sized slices of a buffer of exactly
m * bs bytes gives back the buffer. -/
theorem flatten_slices {bs : Nat} (m r : Nat) (data : Bytes)
    (h : data.length = m * bs) :
    ((List.range' r m).map (fun rb => ((data.drop ((rb - r) * bs)).take bs))).flatten
      = data := by
  induction m generalizing r data with
  | zero =>
    have : data = [] := List.eq_nil_of_length_eq_zero (by simpa using h)
    simp [this]
  | succ n ih =>
    rw [List.range'_succ]
    simp only [List.map_cons, List.flatten_cons, Nat.sub_self, Nat.zero_mul,
      List.drop_zero]
    have hmap : (List.range' (r + 1) n).map
          (fun rb => ((data.drop ((rb - r) * bs)).take bs))
        = (List.range' (r + 1) n).map
          (fun rb => (((data.drop bs).drop ((rb - (r + 1)) * bs)).take bs)) := by
      apply List.map_congr_left
      intro a ha
      have hb := (List.mem_range'_1.mp ha).1
      rw [List.drop_drop]
      have he : (a - r) * bs = bs + (a - (r + 1)) * bs := by
        have h1 : a - r = (a - (r + 1)) + 1 := by omega
        rw [h1, Nat.succ_mul]
        omega
      rw [he]
    rw [hmap, ih (r + 1) (data.drop bs)
      (by rw [List.length_drop, h, Nat.succ_mul]; omega)]
    exact List.take_append_drop bs data

/-- Looking up a key after a fold of uniform insertions: an inserted key
maps to its inserted value, everything else is unchanged. -/
theorem cacheLookup_foldl_insert (l : List Nat) (f : Nat → Bytes)
    (c0 : List (Nat × Bytes)) (b : Nat) :
    cacheLookup (l.foldl (fun c rb => (rb, f rb) :: c) c0) b
      = if b ∈ l then some (f b) else cacheLookup c0 b := by
  induction l generalizing c0 with
  | nil => simp [cacheLookup]
  | cons a rest ih =>
    simp only [List.foldl_cons]
    rw [ih ((a, f a) :: c0)]
    by_cases hb : b ∈ rest
    · simp [hb]
    · by_cases hab : a = b
      · subst hab
        simp [hb, cacheLookup]
      · have h1 : ¬ b ∈ a :: rest := by
          simp only [List.mem_cons]
          push_neg
          exact ⟨fun h => hab h.symm, hb⟩
        simp [hb, h1, cacheLookup, hab]

/-- A decomposition of a contiguous range: any split of range' s n is a
pair of contiguous ranges. -/
theorem range'_of_append (A B : List Nat) (s n : Nat)
    (h : List.range' s n = A ++ B) :
    A = List.range' s A.length ∧ B = List.range' (s + A.length) (n - A.length) := by
  induction A generalizing s n with
  | nil =>
    simpa using h.symm
  | cons a A' ih =>
    cases n with
    | zero => simp at h
    | succ k =>
      rw [List.range'_succ] at h
      simp only [List.cons_append, List.cons.injEq] at h
      obtain ⟨hsa, htail⟩ := h
      obtain ⟨h1, h2⟩ := ih (s + 1) k htail
      refine ⟨?_, ?_⟩
      · rw [List.length_cons, List.range'_succ, ← h1, hsa]
      · have e1 : s + (a :: A').length = (s + 1) + A'.length := by
          simp only [List.length_cons]
          omega
        have e2 : (k + 1) - (a :: A').length = k - A'.length := by
          simp only [List.length_cons]
          omega
        rw [e1, e2]
        exact h2

theorem getLoop_all_hits (cache : List (Nat × Bytes)) (blocks : List Nat)
    (tr : Bytes) (h : ∀ b ∈ blocks, (cacheLookup cache b).isSome) :
    getLoop cache blocks tr none = .ok (tr ++ hitBytes cache blocks, none) := by
  induction blocks generalizing tr with
  | nil => simp [getLoop, hitBytes]
  | cons b rest ih =>
    have hb := h b (List.mem_cons_self b rest)
    obtain ⟨d, hd⟩ := Option.isSome_iff_exists.mp hb
    simp only [getLoop, hd]
    rw [ih (tr ++ d) (fun x hx => h x (List.mem_cons_of_mem b hx))]
    simp [hitBytes, hd, List.append_assoc]

theorem getLoop_pending_inv (cache : List (Nat × Bytes)) (blocks : List Nat)
    (tr tr' : Bytes) (r : Nat) (rsb' : Option Nat)
    (h : getLoop cache blocks tr (some r) = .ok (tr', rsb')) :
    (∀ b ∈ blocks, cacheLookup cache b = none) ∧ tr' = tr ∧ rsb' = some r := by
  induction blocks generalizing tr with
  | nil =>
    simp only [getLoop, Except.ok.injEq, Prod.mk.injEq] at h
    exact ⟨by simp, h.1.symm, h.2.symm⟩
  | cons b rest ih =>
    cases hl : cacheLookup cache b with
    | some d => simp [getLoop, hl] at h
    | none =>
      simp only [getLoop, hl] at h
      obtain ⟨h1, h2, h3⟩ := ih tr h
      refine ⟨?_, h2, h3⟩
      intro x hx
      rcases List.mem_cons.mp hx with hx | hx
      · subst hx
        exact hl
      · exact h1 x hx

theorem getLoop_none_inv (cache : List (Nat × Bytes)) (blocks : List Nat)
    (tr tr' : Bytes) (rsb' : Option Nat)
    (h : getLoop cache blocks tr none = .ok (tr', rsb')) :
    ∃ hits misses, blocks = hits ++ misses
      ∧ (∀ b ∈ hits, (cacheLookup cache b).isSome)
      ∧ (∀ b ∈ misses, cacheLookup cache b = none)
      ∧ tr' = tr ++ hitBytes cache hits
      ∧ rsb' = misses.head? := by
  induction blocks generalizing tr with
  | nil =>
    simp only [getLoop, Except.ok.injEq, Prod.mk.injEq] at h
    exact ⟨[], [], by simp, by simp, by simp,
      by simp [hitBytes, h.1.symm], by simp [h.2.symm]⟩
  | cons b rest ih =>
    cases hl : cacheLookup cache b with
    | some d =>
      simp only [getLoop, hl] at h
      obtain ⟨hits, misses, hb, hh, hm, ht, hr⟩ := ih (tr ++ d) h
      refine ⟨b :: hits, misses, by simp [hb], ?_, hm, ?_, hr⟩
      · intro x hx
        rcases List.mem_cons.mp hx with hx | hx
        · subst hx
          simp [hl]
        · exact hh x hx
      · rw [ht]
        simp [hitBytes, hl, List.append_assoc]
    | none =>
      simp only [getLoop, hl] at h
      obtain ⟨h1, h2, h3⟩ := getLoop_pending_inv cache rest tr tr' b rsb' h
      refine ⟨[], b :: rest, rfl, by simp, ?_, by simp [hitBytes, h2], by simp [h3]⟩
      intro x hx
      rcases List.mem_cons.mp hx with hx | hx
      · subst hx
        exact hl
      · exact h1 x hx

theorem get_mmc_blocks_all_hits (bs : Nat) (fetch : Nat → Nat → Bytes)
    (st : MmcState) (start len : Nat)
    (h : ∀ b ∈ List.range' start len, (cacheLookup st.cache b).isSome) :
    get_mmc_blocks bs fetch st start len
      = .ok (st, hitBytes st.cache (List.range' start len)) := by
  by_cases hlen : len = 0
  · subst hlen
    simp [get_mmc_blocks, hitBytes]
  · unfold get_mmc_blocks
    rw [if_neg hlen, getLoop_all_hits st.cache _ [] h]
    simp

/-- Success characterization of get_mmc_blocks: either every requested
block was cached (state unchanged), or the hits form a prefix, the misses
form the suffix run that gets fetched and written into the cache. -/
theorem get_mmc_blocks_inv (bs : Nat) (fetch : Nat → Nat → Bytes)
    (st st' : MmcState) (start len : Nat) (out : Bytes)
    (h : get_mmc_blocks bs fetch st start len = .ok (st', out)) :
    (st' = st ∧ (∀ b ∈ List.range' start len, (cacheLookup st.cache b).isSome)
       ∧ out = hitBytes st.cache (List.range' start len))
    ∨ (∃ k, k < len
        ∧ (∀ b ∈ List.range' start k, (cacheLookup st.cache b).isSome)
        ∧ (∀ b ∈ List.range' (start + k) (len - k), cacheLookup st.cache b = none)
        ∧ st'.cache = (List.range' (start + k) (len - k)).foldl
            (fun c rb => (rb, ((fetch (start + k) (len - k)).drop
              ((rb - (start + k)) * bs)).take bs) :: c) st.cache
        ∧ st'.fetchLog = st.fetchLog ++ [(start + k, len - k)]
        ∧ out = hitBytes st.cache (List.range' start k)
            ++ fetch (start + k) (len - k)) := by
  by_cases hlen : len = 0
  · subst hlen
    left
    simp only [get_mmc_blocks, if_true, eq_self_iff_true, Except.ok.injEq,
      Prod.mk.injEq] at h
    refine ⟨h.1.symm, by simp, ?_⟩
    simp [hitBytes, h.2.symm]
  · unfold get_mmc_blocks at h
    rw [if_neg hlen] at h
    cases hgl : getLoop st.cache (List.range' start len) [] none with
    | error e =>
      rw [hgl] at h
      simp at h
    | ok p =>
      obtain ⟨tr, rsb⟩ := p
      rw [hgl] at h
      obtain ⟨hits, misses, hb, hh, hm, ht, hr⟩ :=
        getLoop_none_inv st.cache _ [] tr rsb hgl
      obtain ⟨hhits, hmisses⟩ := range'_of_append hits misses start len hb
      cases rsb with
      | none =>
        left
        have hmnil : misses = [] := by
          cases misses with
          | nil => rfl
          | cons x xs => simp at hr
        subst hmnil
        rw [List.append_nil] at hb
        simp only [Except.ok.injEq, Prod.mk.injEq] at h
        refine ⟨h.1.symm, ?_, ?_⟩
        · rw [hb]
          exact hh
        · rw [← h.2, ht, hb]
          simp
      | some r =>
        right
        obtain ⟨m', hm'⟩ : ∃ m', misses = r :: m' := by
          cases misses with
          | nil => simp at hr
          | cons x xs =>
            simp only [List.head?_cons, Option.some.injEq] at hr
            exact ⟨xs, by rw [hr]⟩
        set k := hits.length with hk
        have hlen_split : k + misses.length = len := by
          have hl := congrArg List.length hb
          simp only [List.length_range', List.length_append] at hl
          omega
        have hkl : k < len := by
          have : 0 < misses.length := by
            rw [hm']
            simp
          omega
        have hrk : r = start + k := by
          have hms := hmisses
          rw [hm'] at hms
          have hlk : len - k = (len - k - 1) + 1 := by omega
          rw [hlk, List.range'_succ] at hms
          simp only [List.cons.injEq] at hms
          exact hms.1
        rw [hrk] at h
        dsimp only at h
        have hq : start + len - (start + k) = len - k := by omega
        rw [hq] at h
        unfold read_and_cache_mmc_blocks at h
        rw [if_neg (by omega)] at h
        simp only [Except.ok.injEq, Prod.mk.injEq] at h
        obtain ⟨hst, hout⟩ := h
        refine ⟨k, hkl, ?_, ?_, ?_, ?_, ?_⟩
        · rw [← hhits]
          exact hh
        · rw [← hmisses]
          exact hm
        · rw [← hst]
        · rw [← hst]
        · rw [← hout, ht, ← hhits]
          simp

theorem hitBytes_append (c : List (Nat × Bytes)) (A B : List Nat) :
    hitBytes c (A ++ B) = hitBytes c A ++ hitBytes c B := by
  simp [hitBytes]

/-! ### Claim theorems -/

/-- C1. The claim states the intended coalescing of get_mmc_blocks: one
fetch per maximal missing run, runs flushed before adjacent hits, output
interleaved in block order. The code instead reads the never-assigned
local toReturn at the first cache hit that follows a pending missing run,
raising UnboundLocalError before any fetch. Evaluated at the spec's own
example: blocks {2,3} cached, blocks [0..5] requested. -/
theorem get_mmc_blocks_interleaved_unbound_local :
    get_mmc_blocks 1 (fun s l => (List.range' s l).map (fun b => b))
      { cache := [(2, [22]), (3, [33])], fetchLog := [] } 0 6
      = .error .unboundLocal := by rfl

/-- Invariant of the cache layer over any sequence of requests: the
logged fetches cover pairwise disjoint block ranges, and every block ever
fetched is in the cache. -/
theorem runGets_inv (bs : Nat) (fetch : Nat → Nat → Bytes)
    (ops : List (Nat × Nat)) :
    ∀ st : MmcState,
      (List.Pairwise fetchDisjoint st.fetchLog
        ∧ ∀ e ∈ st.fetchLog, ∀ b ∈ List.range' e.1 e.2,
            (cacheLookup st.cache b).isSome) →
      List.Pairwise fetchDisjoint (runGets bs fetch st ops).fetchLog
        ∧ ∀ e ∈ (runGets bs fetch st ops).fetchLog,
            ∀ b ∈ List.range' e.1 e.2,
              (cacheLookup (runGets bs fetch st ops).cache b).isSome := by
  induction ops with
  | nil =>
    intro st h
    exact h
  | cons op rest ih =>
    intro st h
    obtain ⟨s, l⟩ := op
    cases hop : get_mmc_blocks bs fetch st s l with
    | error e =>
      simp only [runGets, hop]
      exact ih st h
    | ok p =>
      obtain ⟨st', out⟩ := p
      simp only [runGets, hop]
      apply ih st'
      rcases get_mmc_blocks_inv bs fetch st st' s l out hop with
        ⟨hst, _, _⟩ | ⟨k, hkl, hh, hm, hcache, hlog, hout⟩
      · rw [hst]
        exact h
      · obtain ⟨hpw, hcached⟩ := h
        have hlkup : ∀ b, cacheLookup st'.cache b
            = if b ∈ List.range' (s + k) (l - k) then
                some (((fetch (s + k) (l - k)).drop ((b - (s + k)) * bs)).take bs)
              else cacheLookup st.cache b := by
          intro b
          rw [hcache]
          exact cacheLookup_foldl_insert _ _ _ b
        constructor
        · rw [hlog, List.pairwise_append]
          refine ⟨hpw, List.pairwise_singleton _ _, ?_⟩
          intro e he e' he'
          simp only [List.mem_singleton] at he'
          subst he'
          intro b hbe hbr
          have h1 := hcached e he b hbe
          rw [hm b hbr] at h1
          simp at h1
        · intro e he b hbe
          rw [hlkup b]
          by_cases hbr : b ∈ List.range' (s + k) (l - k)
          · simp [hbr]
          · rw [if_neg hbr]
            rw [hlog] at he
            rcases List.mem_append.mp he with he | he
            · exact hcached e he b hbe
            · simp only [List.mem_singleton] at he
              subst he
              exact absurd hbe hbr

/-- C3. Idempotence of get_mmc_blocks: once a request has completed,
repeating it touches the driver zero further times (the state, fetch log
included, is unchanged) and returns byte-identical output; every fetch the
first call logged covered only blocks absent from the cache when the call
began; and over the life of a cache started empty, any sequence of
requests logs pairwise disjoint fetches — each block index is fetched
from the console at most once. -/
theorem get_mmc_blocks_idempotent (bs : Nat) (fetch : Nat → Nat → Bytes)
    (hfetch : ∀ s l, (fetch s l).length = l * bs)
    (st st' : MmcState) (start len : Nat) (out : Bytes)
    (h : get_mmc_blocks bs fetch st start len = .ok (st', out)) :
    get_mmc_blocks bs fetch st' start len = .ok (st', out)
    ∧ (∀ e ∈ st'.fetchLog.drop st.fetchLog.length,
        ∀ b ∈ List.range' e.1 e.2, cacheLookup st.cache b = none)
    ∧ ∀ ops : List (Nat × Nat),
        List.Pairwise fetchDisjoint
          (runGets bs fetch { cache := [], fetchLog := [] } ops).fetchLog := by
  refine and_assoc.mp ⟨?_, fun ops =>
    (runGets_inv bs fetch ops { cache := [], fetchLog := [] }
      ⟨List.Pairwise.nil, by simp⟩).1⟩
  rcases get_mmc_blocks_inv bs fetch st st' start len out h with
    ⟨hst, hall, hout⟩ | ⟨k, hkl, hh, hm, hcache, hlog, hout⟩
  · constructor
    · rw [hst, hout]
      exact get_mmc_blocks_all_hits bs fetch st start len hall
    · rw [hst]
      simp [List.drop_length]
  · set q := len - k with hqdef
    set data := fetch (start + k) q with hdata
    have hlkup : ∀ b, cacheLookup st'.cache b
        = if b ∈ List.range' (start + k) q then
            some ((data.drop ((b - (start + k)) * bs)).take bs)
          else cacheLookup st.cache b := by
      intro b
      rw [hcache]
      exact cacheLookup_foldl_insert _ _ _ b
    have hsplit : List.range' start k ++ List.range' (start + k) q
        = List.range' start len := by
      have ha := List.range'_append start k q 1
      simp only [one_mul] at ha
      rw [ha]
      congr 1
      omega
    have hdisj : ∀ b ∈ List.range' start k, b ∉ List.range' (start + k) q := by
      intro b hbmem hbmem2
      have h1 := (List.mem_range'_1.mp hbmem).2
      have h2 := (List.mem_range'_1.mp hbmem2).1
      omega
    constructor
    · rw [get_mmc_blocks_all_hits bs fetch st' start len ?hits]
      case hits =>
        intro b hb
        rw [hlkup b]
        by_cases hbm : b ∈ List.range' (start + k) q
        · simp [hbm]
        · rw [if_neg hbm]
          have hbh : b ∈ List.range' start k := by
            rw [← hsplit] at hb
            rcases List.mem_append.mp hb with hx | hx
            · exact hx
            · exact absurd hx hbm
          exact hh b hbh
      have hval : hitBytes st'.cache (List.range' start len) = out := by
        rw [← hsplit, hitBytes_append, hout]
        congr 1
        · unfold hitBytes
          congr 1
          apply List.map_congr_left
          intro b hb
          rw [hlkup b, if_neg (hdisj b hb)]
        · unfold hitBytes
          have hmap : (List.range' (start + k) q).map
                (fun b => (cacheLookup st'.cache b).getD [])
              = (List.range' (start + k) q).map
                (fun b => ((data.drop ((b - (start + k)) * bs)).take bs)) := by
            apply List.map_congr_left
            intro b hb
            rw [hlkup b, if_pos hb]
            rfl
          rw [hmap]
          exact flatten_slices q (start + k) data (hfetch _ _)
      rw [hval]
    · rw [hlog, List.drop_left]
      intro e he
      simp only [List.mem_singleton] at he
      subst he
      intro b hb
      exact hm b hb

/-- Witness for C3: a concrete first call (one hit, then a missing run of
two blocks) after which the repeat is a pure cache replay. -/
theorem get_mmc_blocks_idempotent_witness :
    get_mmc_blocks 1 (fun _ l => List.replicate l 7)
        { cache := [(3, [7]), (2, [7]), (1, [9])], fetchLog := [(2, 2)] } 1 3
      = .ok ({ cache := [(3, [7]), (2, [7]), (1, [9])], fetchLog := [(2, 2)] },
             [9, 7, 7]) :=
  (get_mmc_blocks_idempotent 1 (fun _ l => List.replicate l 7)
    (fun s l => by simp) { cache := [(1, [9])], fetchLog := [] }
    { cache := [(3, [7]), (2, [7]), (1, [9])], fetchLog := [(2, 2)] } 1 3
    [9, 7, 7] (by rfl)).1

theorem get_preserves_cache (bs : Nat) (fetch : Nat → Nat → Bytes)
    (st st' : MmcState) (start len : Nat) (out : Bytes)
    (h : get_mmc_blocks bs fetch st start len = .ok (st', out)) :
    ∀ b v, cacheLookup st.cache b = some v → cacheLookup st'.cache b = some v := by
  rcases get_mmc_blocks_inv bs fetch st st' start len out h with
    ⟨hst, hall, hout⟩ | ⟨k, hkl, hh, hm, hcache, hlog, hout⟩
  · intro b v hv
    rw [hst]
    exact hv
  · intro b v hv
    rw [hcache, cacheLookup_foldl_insert _ _ _ b]
    have hbm : b ∉ List.range' (start + k) (len - k) := by
      intro hmem
      rw [hm b hmem] at hv
      exact Option.noConfusion hv
    rw [if_neg hbm]
    exact hv

/-- C10. Cache entries are never overwritten or removed: a successful
get_mmc_blocks preserves every prior cache entry byte-identically, every
run it passed to read_and_cache_mmc_blocks consisted only of block
indices absent from the cache at scan time, and a successful filesystem
read preserves every prior cache entry too. -/
theorem cache_entries_preserved (bs : Nat) (fetch : Nat → Nat → Bytes)
    (st st' : MmcState) (start len : Nat) (out : Bytes)
    (h : get_mmc_blocks bs fetch st start len = .ok (st', out)) :
    (∀ b v, cacheLookup st.cache b = some v → cacheLookup st'.cache b = some v)
    ∧ (∀ e ∈ st'.fetchLog.drop st.fetchLog.length,
        ∀ b ∈ List.range' e.1 e.2, cacheLookup st.cache b = none)
    ∧ ∀ (partitions : List (Nat × Partition)) (path : String)
        (size offset : Nat) (st2 : MmcState) (out2 : Bytes),
        readS bs fetch partitions st path size offset = .ok (st2, out2) →
        ∀ b v, cacheLookup st.cache b = some v →
          cacheLookup st2.cache b = some v := by
  refine ⟨get_preserves_cache bs fetch st st' start len out h, ?_, ?_⟩
  · rcases get_mmc_blocks_inv bs fetch st st' start len out h with
      ⟨hst, hall, hout⟩ | ⟨k, hkl, hh, hm, hcache, hlog, hout⟩
    · rw [hst]
      simp [List.drop_length]
    · rw [hlog, List.drop_left]
      intro e he
      simp only [List.mem_singleton] at he
      subst he
      intro b hb
      exact hm b hb
  · intro partitions path size offset st2 out2 h2
    unfold readS at h2
    cases hres : resolvePart partitions path with
    | none =>
      rw [hres] at h2
      simp at h2
    | some part =>
      rw [hres] at h2
      dsimp only at h2
      cases hplan : read_plan bs part size offset with
      | none =>
        rw [hplan] at h2
        simp only [Except.ok.injEq, Prod.mk.injEq] at h2
        intro b v hv
        rw [← h2.1]
        exact hv
      | some plan =>
        obtain ⟨sb, bl, so, bc⟩ := plan
        rw [hplan] at h2
        dsimp only at h2
        cases hget : get_mmc_blocks bs fetch st sb bl with
        | error e =>
          rw [hget] at h2
          simp at h2
        | ok p =>
          obtain ⟨st1, bd⟩ := p
          rw [hget] at h2
          simp only [Except.ok.injEq, Prod.mk.injEq] at h2
          intro b v hv
          rw [← h2.1]
          exact get_preserves_cache bs fetch st st1 sb bl bd hget b v hv

/-- Witness for C10: the pre-existing entry for block 1 survives a call
that fetches blocks 2 and 3. -/
theorem cache_entries_preserved_witness :
    cacheLookup [(3, [7]), (2, [7]), (1, [9])] 1 = some [9] :=
  (cache_entries_preserved 1 (fun _ l => List.replicate l 7)
    { cache := [(1, [9])], fetchLog := [] }
    { cache := [(3, [7]), (2, [7]), (1, [9])], fetchLog := [(2, 2)] } 1 3
    [9, 7, 7] (by rfl)).1 1 [9] (by rfl)

theorem rmbLoop_no_match (lines : List String) (a : Nat) (bd : List Char)
    (h : ∀ l ∈ lines, matchDumpLine l = none) :
    rmbLoop lines a bd = .ok bd := by
  induction lines generalizing a bd with
  | nil => rfl
  | cons l rest ih =>
    have hl := h l (List.mem_cons_self l rest)
    simp only [rmbLoop, hl]
    exact ih a bd (fun x hx => h x (List.mem_cons_of_mem l hx))

theorem rmbLoop_mismatch (lines : List String) (a : Nat) (bd : List Char)
    (h : ∃ i, i < ((lines.filterMap matchDumpLine).map Prod.fst).length ∧
      ((lines.filterMap matchDumpLine).map Prod.fst).get? i ≠ some (a + 0x10 * i)) :
    ∃ e g, rmbLoop lines a bd = .error (.desync e g) ∧ g ≠ e := by
  induction lines generalizing a bd with
  | nil =>
    obtain ⟨i, hi, _⟩ := h
    simp at hi
  | cons l rest ih =>
    cases hml : matchDumpLine l with
    | none =>
      simp only [rmbLoop, hml]
      apply ih a bd
      obtain ⟨i, hi, hne⟩ := h
      rw [List.filterMap_cons_none hml] at hi hne
      exact ⟨i, hi, hne⟩
    | some p =>
      obtain ⟨addr, g2⟩ := p
      simp only [rmbLoop, hml]
      by_cases haddr : addr = a
      · subst haddr
        rw [if_neg (by omega)]
        apply ih (addr + 0x10) (bd ++ g2.filter (fun c => !(isPySpace c)))
        obtain ⟨i, hi, hne⟩ := h
        rw [List.filterMap_cons_some hml] at hi hne
        cases i with
        | zero => simp at hne
        | succ j =>
          simp only [List.map_cons, List.length_cons, List.get?_cons_succ] at hi hne
          refine ⟨j, by omega, ?_⟩
          have he : addr + 0x10 * (j + 1) = (addr + 0x10) + 0x10 * j := by ring
          rw [he] at hne
          exact hne
      · rw [if_pos haddr]
        exact ⟨a, addr, rfl, haddr⟩

/-- C4. During read_blocks the expected-next-address counter starts at the
staging address 0x90000000 and advances by 0x10 per matched line; a
transcript whose i-th matched dump line carries any other address makes
the operation fail with the desync error instead of returning bytes, and a
transcript with no matching dump line at all fails fatally too. -/
theorem read_mmc_blocks_desync (lines : List String) (len : Nat) (hlen : len ≠ 0) :
    ((∃ i, i < ((lines.filterMap matchDumpLine).map Prod.fst).length ∧
        ((lines.filterMap matchDumpLine).map Prod.fst).get? i
          ≠ some (0x90000000 + 0x10 * i)) →
      ∃ e g, read_mmc_blocks lines len = .error (.desync e g) ∧ g ≠ e)
    ∧ (lines.filterMap matchDumpLine = [] →
      read_mmc_blocks lines len
        = .error (.runtimeError "Could not read any memory output")) := by
  constructor
  · intro hex
    obtain ⟨e, g, herr, hne⟩ := rmbLoop_mismatch lines 0x90000000 [] hex
    refine ⟨e, g, ?_, hne⟩
    unfold read_mmc_blocks
    rw [if_neg hlen, herr]
  · intro hnone
    have hml : ∀ l ∈ lines, matchDumpLine l = none := by
      intro l hl
      exact List.filterMap_eq_nil_iff.mp hnone l hl
    unfold read_mmc_blocks
    rw [if_neg hlen, rmbLoop_no_match lines 0x90000000 [] hml]
    rfl

/-- Witness for C4: a transcript that jumps from address 0x90000000
directly to 0x90000020 aborts with the desync error. -/
theorem read_mmc_blocks_desync_witness :
    read_mmc_blocks [dumpLine1, dumpLine2] 1
        = .error (.desync 0x90000010 0x90000020)
    ∧ ∃ e g, read_mmc_blocks [dumpLine1, dumpLine2] 1
        = .error (.desync e g) ∧ g ≠ e :=
  ⟨by rfl,
   (read_mmc_blocks_desync [dumpLine1, dumpLine2] 1 (by decide)).1
     ⟨1, by decide, by decide⟩⟩

theorem scanBlockSize_keeps (lines : List String) (acc : Option Nat)
    (h : ∀ l ∈ lines, strStartsWith ("Rd Block Len:".data) l.data = false) :
    scanBlockSize lines acc = .ok acc := by
  induction lines generalizing acc with
  | nil => rfl
  | cons l rest ih =>
    have hl := h l (List.mem_cons_self l rest)
    simp only [scanBlockSize, hl]
    exact ih acc (fun x hx => h x (List.mem_cons_of_mem l hx))

theorem buildParts_keeps (lines : List String) (acc : List (Nat × Partition))
    (h : ∀ l ∈ lines, parsePartLine l = none) :
    buildParts lines acc = acc := by
  induction lines generalizing acc with
  | nil => rfl
  | cons l rest ih =>
    have hl := h l (List.mem_cons_self l rest)
    simp only [buildParts, hl]
    exact ih acc (fun x hx => h x (List.mem_cons_of_mem l hx))

/-- C5. Startup discovery fails fatally when the device-info transcript has
no block-size line, and likewise when the partition listing yields no
matching row; in both cases read_mmc_partitions surfaces an error instead
of a (block size, partition table) pair, so serving never starts. -/
theorem read_mmc_partitions_requires_discovery (lines1 lines2 : List String) :
    ((∀ l ∈ lines1, strStartsWith ("Rd Block Len:".data) l.data = false) →
      ∃ e, read_mmc_partitions lines1 lines2 = .error e)
    ∧ ((∀ l ∈ lines2, parsePartLine l = none) →
      ∃ e, read_mmc_partitions lines1 lines2 = .error e) := by
  constructor
  · intro h1
    refine ⟨PyErr.attributeError, ?_⟩
    unfold read_mmc_partitions
    rw [scanBlockSize_keeps lines1 none h1]
    rfl
  · intro h2
    have hbp : buildParts lines2 [] = [] := buildParts_keeps lines2 [] h2
    cases hscan : scanBlockSize lines1 none with
    | error e =>
      refine ⟨e, ?_⟩
      unfold read_mmc_partitions
      rw [hscan]
      rfl
    | ok obs =>
      match obs with
      | none =>
        refine ⟨PyErr.attributeError, ?_⟩
        unfold read_mmc_partitions
        rw [hscan]
        rfl
      | some 0 =>
        refine ⟨PyErr.runtimeError
          "Could not initialize: no blocksize information found", ?_⟩
        unfold read_mmc_partitions
        rw [hscan]
        rfl
      | some (b + 1) =>
        refine ⟨PyErr.runtimeError
          "Could not initialize: no partition information found", ?_⟩
        unfold read_mmc_partitions
        rw [hscan]
        show (if (buildParts lines2 []).isEmpty then _ else _) = _
        rw [hbp]
        rfl

/-- Witness for C5: a transcript without the block-size label fails, and a
discovered block size with an unparsable partition listing fails too. -/
theorem read_mmc_partitions_requires_discovery_witness :
    read_mmc_partitions ["foo\n"] ["bar\n"] = .error .attributeError
    ∧ (∃ e, read_mmc_partitions ["foo\n"] ["bar\n"] = .error e)
    ∧ ∃ e, read_mmc_partitions ["Rd Block Len: 512\n"] ["bar\n"] = .error e :=
  ⟨by rfl,
   (read_mmc_partitions_requires_discovery ["foo\n"] ["bar\n"]).1 (by decide),
   (read_mmc_partitions_requires_discovery ["Rd Block Len: 512\n"] ["bar\n"]).2
     (by decide)⟩

/-- The block range read plans always covers the requested byte range:
slicing the planned whole-block over-fetch yields exactly the partition's
bytes from the requested offset. -/
theorem read_slice_core (bs : Nat) (hbs : 0 < bs) (dev : Nat → Bytes)
    (hdev : ∀ b, (dev b).length = bs) (plen s offset size : Nat)
    (hoff : offset < plen * bs) (hsize : 0 < size) :
    ((devBytes dev (offset / bs + s)
        ((min (offset + size) (plen * bs)) / bs + s
          + (if 0 < (min (offset + size) (plen * bs)) % bs then 1 else 0)
          - (offset / bs + s))).drop (offset % bs)).take
        (min (offset + size) (plen * bs) - offset)
      = ((devBytes dev s plen).drop offset).take
          (min size (plen * bs - offset)) := by
  set E := min (offset + size) (plen * bs) with hE
  have hoffE : offset < E := by omega
  have hEP : E ≤ plen * bs := min_le_right _ _
  have hdm1 : bs * (offset / bs) + offset % bs = offset := Nat.div_add_mod offset bs
  have hdm2 : bs * (E / bs) + E % bs = E := Nat.div_add_mod E bs
  have hmod1 : offset % bs < bs := Nat.mod_lt offset hbs
  have hmod2 : E % bs < bs := Nat.mod_lt E hbs
  have hq_lt : offset / bs < plen := (Nat.div_lt_iff_lt_mul hbs).mpr hoff
  have hqQ : offset / bs ≤ E / bs := Nat.div_le_div_right (le_of_lt hoffE)
  have hQle : E / bs ≤ plen := by
    have h1 : E / bs ≤ plen * bs / bs := Nat.div_le_div_right hEP
    rwa [Nat.mul_div_cancel _ hbs] at h1
  set pad := (if 0 < E % bs then 1 else 0) with hpaddef
  have hQpad : E / bs + pad ≤ plen := by
    by_cases hrpos : 0 < E % bs
    · have hEneq : E ≠ plen * bs := by
        intro hcontra
        rw [hcontra, Nat.mul_mod_left] at hrpos
        omega
      have hElt : E < plen * bs := lt_of_le_of_ne hEP hEneq
      have h2 : E / bs < plen := (Nat.div_lt_iff_lt_mul hbs).mpr hElt
      simp only [hpaddef, if_pos hrpos]
      omega
    · simp only [hpaddef, if_neg hrpos]
      omega
  have hpadE : E ≤ bs * (E / bs + pad) := by
    by_cases hrpos : 0 < E % bs
    · simp only [hpaddef, if_pos hrpos]
      rw [Nat.mul_add]
      omega
    · simp only [hpaddef, if_neg hrpos]
      rw [Nat.mul_add]
      omega
  have hBL : E / bs + s + pad - (offset / bs + s) = E / bs + pad - offset / bs := by
    omega
  rw [hBL]
  have hc : min size (plen * bs - offset) = E - offset := by omega
  have hsplit : bs * (E / bs + pad)
      = bs * (offset / bs) + bs * (E / bs + pad - offset / bs) := by
    rw [← Nat.mul_add]
    congr 1
    omega
  have hcommBL : (E / bs + pad - offset / bs) * bs
      = bs * (E / bs + pad - offset / bs) := Nat.mul_comm _ _
  have hslice := devBytes_slice hdev s (offset / bs) (E / bs + pad - offset / bs)
    plen (offset % bs) (min size (plen * bs - offset))
    (le_of_lt hq_lt) (by omega) (by omega)
  have hoffeq : offset / bs * bs + offset % bs = offset := by
    have hcm : offset / bs * bs = bs * (offset / bs) := Nat.mul_comm _ _
    omega
  rw [hoffeq] at hslice
  have hadd : offset / bs + s = s + offset / bs := Nat.add_comm _ _
  rw [hadd, ← hc]
  exact hslice

/-- C2. For a known partition and size > 0: a read at or past the end of
the partition returns the empty byte string (not an error), and any other
read returns exactly min(size, partition_size - offset) bytes, namely the
partition's bytes from byte offset onward, assuming the cache layer
delivers correct full blocks. -/
theorem read_exact_byte_range (bs : Nat) (hbs : 0 < bs)
    (dev : Nat → Bytes) (hdev : ∀ b, (dev b).length = bs)
    (get : Nat → Nat → Bytes) (hget : ∀ s l, get s l = devBytes dev s l)
    (partitions : List (Nat × Partition)) (path : String) (part : Partition)
    (hres : resolvePart partitions path = some part)
    (size offset : Nat) (hsize : 0 < size) :
    (part.length * bs ≤ offset → read bs partitions get path size offset = .ok [])
    ∧ (offset < part.length * bs →
        read bs partitions get path size offset
          = .ok (((devBytes dev part.start part.length).drop offset).take
              (min size (part.length * bs - offset)))
        ∧ (((devBytes dev part.start part.length).drop offset).take
              (min size (part.length * bs - offset))).length
            = min size (part.length * bs - offset)) := by
  constructor
  · intro hoff
    have hplan : read_plan bs part size offset = none := by
      unfold read_plan
      rw [if_pos (by omega)]
    unfold read
    rw [hres]
    dsimp only
    rw [hplan]
  · intro hoff
    have hplan : read_plan bs part size offset
        = some (offset / bs + part.start,
            (min (offset + size) (part.length * bs)) / bs + part.start
              + (if 0 < (min (offset + size) (part.length * bs)) % bs then 1 else 0)
              - (offset / bs + part.start),
            offset % bs,
            min (offset + size) (part.length * bs) - offset) := by
      unfold read_plan
      rw [if_neg (by omega)]
    constructor
    · unfold read
      rw [hres]
      dsimp only
      rw [hplan]
      dsimp only
      rw [hget]
      exact congrArg Except.ok
        (read_slice_core bs hbs dev hdev part.length part.start offset size
          hoff hsize)
    · have hdlen : (devBytes dev part.start part.length).length
          = part.length * bs := devBytes_length hdev _ _
      rw [List.length_take, List.length_drop, hdlen]
      omega

/-- Witness for C2: block size 2, one partition of 4 blocks holding the
repeating bytes 1 2; a 4-byte read at offset 3 returns the 4 in-range
bytes, and a read at offset 9 (past the 8-byte partition) returns empty. -/
theorem read_exact_byte_range_witness :
    read 2 [(8, ⟨8, 100, 4⟩)] (devBytes (fun _ => [1, 2])) "/8" 4 3
      = .ok [2, 1, 2, 1]
    ∧ read 2 [(8, ⟨8, 100, 4⟩)] (devBytes (fun _ => [1, 2])) "/8" 4 9
      = .ok [] := by
  constructor
  · have h := (read_exact_byte_range 2 (by decide) (fun _ => [1, 2])
      (fun _ => rfl) (devBytes (fun _ => [1, 2])) (fun _ _ => rfl)
      [(8, ⟨8, 100, 4⟩)] "/8" ⟨8, 100, 4⟩ (by rfl) 4 3 (by decide)).2
      (by decide)
    rw [h.1]
    rfl
  · exact (read_exact_byte_range 2 (by decide) (fun _ => [1, 2])
      (fun _ => rfl) (devBytes (fun _ => [1, 2])) (fun _ _ => rfl)
      [(8, ⟨8, 100, 4⟩)] "/8" ⟨8, 100, 4⟩ (by rfl) 4 9 (by decide)).1
      (by decide)

/-- C8. A read straddling a block boundary (offset mod bs = bs - 5,
size = 10, in range): the plan is exactly (offset div bs + part.start,
2 blocks, block offset bs - 5, 10 bytes) as the spec's formulas say;
whatever cache layer is plugged in, the result is the slice of its answer
for those 2 contiguous blocks; and with a correct cache layer the bytes
come out stitched across the boundary. -/
theorem read_straddles_two_blocks (bs : Nat) (hbs : 6 ≤ bs)
    (partitions : List (Nat × Partition)) (path : String) (part : Partition)
    (hres : resolvePart partitions path = some part)
    (offset : Nat) (hmod : offset % bs = bs - 5)
    (hfit : offset + 10 ≤ part.length * bs) :
    read_plan bs part 10 offset
      = some (offset / bs + part.start, 2, bs - 5, 10)
    ∧ (∀ get : Nat → Nat → Bytes,
        read bs partitions get path 10 offset
          = .ok (((get (offset / bs + part.start) 2).drop (bs - 5)).take 10))
    ∧ (∀ dev : Nat → Bytes, (∀ b, (dev b).length = bs) →
        read bs partitions (devBytes dev) path 10 offset
          = .ok (((devBytes dev part.start part.length).drop offset).take 10)) := by
  have hbs0 : 0 < bs := by omega
  have hdm : bs * (offset / bs) + offset % bs = offset := Nat.div_add_mod offset bs
  have h10 : offset + 10 = bs * (offset / bs + 1) + 5 := by
    rw [Nat.mul_add]
    omega
  have hmin : min (offset + 10) (part.length * bs) = offset + 10 := min_eq_left hfit
  have hdiv : (offset + 10) / bs = offset / bs + 1 := by
    rw [h10, Nat.mul_add_div hbs0]
    have h5 : 5 / bs = 0 := Nat.div_eq_of_lt (by omega)
    omega
  have hmods : (offset + 10) % bs = 5 := by
    rw [h10, Nat.mul_add_mod]
    exact Nat.mod_eq_of_lt (by omega)
  have hcount : (offset + 10) / bs + part.start
      + (if 0 < (offset + 10) % bs then 1 else 0) - (offset / bs + part.start)
      = 2 := by
    rw [hdiv, hmods]
    norm_num
    omega
  have hplan : read_plan bs part 10 offset
      = some (offset / bs + part.start, 2, bs - 5, 10) := by
    unfold read_plan
    rw [if_neg (by omega)]
    dsimp only
    rw [hmin, hcount, hmod]
    have h4 : offset + 10 - offset = 10 := by omega
    rw [h4]
  refine ⟨hplan, ?_, ?_⟩
  · intro get
    unfold read
    rw [hres]
    dsimp only
    rw [hplan]
  · intro dev hdev
    have hq_lt : offset / bs < part.length :=
      (Nat.div_lt_iff_lt_mul hbs0).mpr (by omega)
    have hq2 : offset / bs + 2 ≤ part.length := by
      by_contra hcon
      push_neg at hcon
      have h5 : part.length * bs ≤ (offset / bs + 1) * bs :=
        Nat.mul_le_mul_right bs (by omega)
      have hcm : (offset / bs + 1) * bs = bs * (offset / bs + 1) := Nat.mul_comm _ _
      omega
    have hslice := devBytes_slice hdev part.start (offset / bs) 2 part.length
      (bs - 5) 10 (by omega) (by omega) (by omega)
    have hoffeq : offset / bs * bs + (bs - 5) = offset := by
      have hcm : offset / bs * bs = bs * (offset / bs) := Nat.mul_comm _ _
      omega
    rw [hoffeq] at hslice
    unfold read
    rw [hres]
    dsimp only
    rw [hplan]
    dsimp only
    have hadd : offset / bs + part.start = part.start + offset / bs :=
      Nat.add_comm _ _
    rw [hadd, hslice]

/-- Witness for C8: block size 8, offset 3 (3 = 8 - 5), size 10 on a
4-block partition starting at block 100: exactly 2 blocks are planned and
the 10 bytes are stitched across the block boundary. -/
theorem read_straddles_two_blocks_witness :
    read_plan 8 ⟨8, 100, 4⟩ 10 3 = some (100, 2, 3, 10)
    ∧ read 8 [(8, ⟨8, 100, 4⟩)]
        (devBytes (fun _ => [0, 1, 2, 3, 4, 5, 6, 7])) "/8" 10 3
      = .ok [3, 4, 5, 6, 7, 0, 1, 2, 3, 4] := by
  have h := read_straddles_two_blocks 8 (by decide) [(8, ⟨8, 100, 4⟩)] "/8"
    ⟨8, 100, 4⟩ (by rfl) 3 (by decide) (by decide)
  refine ⟨h.1, ?_⟩
  have h2 := h.2.2 (fun _ => [0, 1, 2, 3, 4, 5, 6, 7]) (fun _ => rfl)
  rw [h2]
  rfl

/-- Counterexample to C6 as stated: with partition 8 known and block size
512, the path "/+8" is not "/" followed by a decimal numeral, yet getattr
reports a regular file instead of the not-found error the claim requires
(Python's int() tolerates a sign, and surrounding whitespace too). -/
theorem getattr_accepts_non_numeral_path :
    getattr 512 [(8, ⟨8, 100, 4⟩)] "/+8" = .ok (regStat 2048)
    ∧ ("/+8".data.drop 1).all Char.isDigit = false := by
  exact ⟨rfl, rfl⟩

/-- C6 (amended). getattr returns the not-found error exactly when the
path is not "/" and its tail (everything after the first character) does
not resolve — via Python int conversion, which also accepts surrounding
whitespace and a sign — to a known partition number; "/" reports a
directory and a resolving path reports a regular file of size
length * block_size. -/
theorem getattr_not_found_charact (bs : Nat)
    (partitions : List (Nat × Partition)) (path : String) :
    (getattr bs partitions path = .error (.fuseOSError ENOENT)
      ↔ path ≠ "/" ∧ resolvePart partitions path = none)
    ∧ (path = "/" → getattr bs partitions path = .ok dirStat)
    ∧ (∀ part, resolvePart partitions path = some part →
        getattr bs partitions path = .ok (regStat (part.length * bs))) := by
  refine ⟨?_, ?_, ?_⟩
  · by_cases hroot : path = "/"
    · subst hroot
      unfold getattr
      rw [if_pos rfl]
      simp
    · unfold getattr
      rw [if_neg hroot]
      cases hres : resolvePart partitions path with
      | none => simp [hroot]
      | some part => simp
  · intro hroot
    subst hroot
    unfold getattr
    rw [if_pos rfl]
  · intro part hresolve
    by_cases hroot : path = "/"
    · subst hroot
      have hnone : resolvePart partitions "/" = none := rfl
      rw [hnone] at hresolve
      exact Option.noConfusion hresolve
    · unfold getattr
      rw [if_neg hroot, hresolve]

/-- Witness for C6: with one 4-block partition numbered 8 at block size
512: the root is a directory, "/8" is a 2048-byte regular file, and "/9"
is not found. -/
theorem getattr_not_found_charact_witness :
    getattr 512 [(8, ⟨8, 100, 4⟩)] "/" = .ok dirStat
    ∧ getattr 512 [(8, ⟨8, 100, 4⟩)] "/8" = .ok (regStat 2048)
    ∧ getattr 512 [(8, ⟨8, 100, 4⟩)] "/9" = .error (.fuseOSError ENOENT) :=
  ⟨(getattr_not_found_charact 512 [(8, ⟨8, 100, 4⟩)] "/").2.1 rfl,
   (getattr_not_found_charact 512 [(8, ⟨8, 100, 4⟩)] "/8").2.2
     ⟨8, 100, 4⟩ (by rfl),
   (getattr_not_found_charact 512 [(8, ⟨8, 100, 4⟩)] "/9").1.mpr
     ⟨by decide, by rfl⟩⟩

theorem runOpens_handles_gt (calls : List (String × Nat)) (fd : Nat) :
    List.Pairwise (· < ·) (runOpens fd calls).2
    ∧ ∀ h ∈ (runOpens fd calls).2, fd < h := by
  induction calls generalizing fd with
  | nil => simp [runOpens]
  | cons c rest ih =>
    obtain ⟨p, f⟩ := c
    by_cases hw : f &&& (O_RDONLY ||| O_WRONLY ||| O_RDWR) = O_RDONLY
    · have hok : fuseOpen p fd f = .ok (fd + 1, fd + 1) := by
        unfold fuseOpen
        rw [if_neg (fun hC => hC hw)]
      simp only [runOpens, hok]
      obtain ⟨ih1, ih2⟩ := ih (fd + 1)
      constructor
      · refine List.Pairwise.cons ?_ ih1
        intro b hb
        have := ih2 b hb
        omega
      · intro h hh
        rcases List.mem_cons.mp hh with hh | hh
        · omega
        · have := ih2 h hh
          omega
    · have herr : fuseOpen p fd f = .error (.fuseOSError EACCES) := by
        unfold fuseOpen
        rw [if_pos hw]
      simp only [runOpens, herr]
      exact ih fd

/-- C7. open: an access mode with the O_WRONLY or O_RDWR bit set fails
with a permission error before the handle counter moves; a read-only open
succeeds and returns the incremented counter; hence the handles granted
over any call sequence strictly increase and all exceed the counter the
sequence started from. -/
theorem open_rejects_writes_and_handles_increase (path : String)
    (fd flags : Nat) (calls : List (String × Nat)) :
    ((flags &&& O_WRONLY ≠ 0 ∨ flags &&& O_RDWR ≠ 0) →
      fuseOpen path fd flags = .error (.fuseOSError EACCES)
      ∧ runOpens fd [(path, flags)] = (fd, []))
    ∧ (flags &&& O_WRONLY = 0 ∧ flags &&& O_RDWR = 0 →
      fuseOpen path fd flags = .ok (fd + 1, fd + 1))
    ∧ List.Pairwise (· < ·) (runOpens fd calls).2
    ∧ ∀ h ∈ (runOpens fd calls).2, fd < h := by
  have hb1 : flags &&& O_WRONLY = flags % 2 := Nat.and_one_is_mod flags
  have hb2 : flags &&& O_RDWR = flags / 2 % 2 * 2 := by
    have h := Nat.and_two_pow flags 1
    rw [Nat.toNat_testBit] at h
    simpa using h
  have hacc : (O_RDONLY ||| O_WRONLY ||| O_RDWR) = 3 := by decide
  have hb3 : flags &&& (O_RDONLY ||| O_WRONLY ||| O_RDWR) = flags % 4 := by
    have h := Nat.and_pow_two_sub_one_eq_mod flags 2
    norm_num at h
    rw [hacc]
    exact h
  refine ⟨?_, ?_, (runOpens_handles_gt calls fd).1, (runOpens_handles_gt calls fd).2⟩
  · intro hw
    have hne : flags &&& (O_RDONLY ||| O_WRONLY ||| O_RDWR) ≠ O_RDONLY := by
      rw [hb3]
      show flags % 4 ≠ 0
      rcases hw with hw | hw
      · rw [hb1] at hw
        omega
      · rw [hb2] at hw
        omega
    have herr : fuseOpen path fd flags = .error (.fuseOSError EACCES) := by
      unfold fuseOpen
      rw [if_pos hne]
    refine ⟨herr, ?_⟩
    simp only [runOpens, herr]
  · intro hw
    have heq : flags &&& (O_RDONLY ||| O_WRONLY ||| O_RDWR) = O_RDONLY := by
      rw [hb3]
      show flags % 4 = 0
      obtain ⟨hw1, hw2⟩ := hw
      rw [hb1] at hw1
      rw [hb2] at hw2
      omega
    unfold fuseOpen
    rw [if_neg (fun hC => hC heq)]

/-- Witness for C7: a write-capable open is refused leaving the counter at
5, a read-only open returns handle 6, and in the sequence read-only,
read-write, read-only from counter 0 the granted handles increase and
exceed 0. -/
theorem open_rejects_writes_witness :
    fuseOpen "/x" 5 1 = .error (.fuseOSError 13)
    ∧ runOpens 5 [("/x", 1)] = (5, [])
    ∧ fuseOpen "/x" 5 0 = .ok (6, 6)
    ∧ List.Pairwise (· < ·) (runOpens 0 [("/a", 0), ("/b", 2), ("/c", 0)]).2
    ∧ ∀ h ∈ (runOpens 0 [("/a", 0), ("/b", 2), ("/c", 0)]).2, 0 < h := by
  have h1 := (open_rejects_writes_and_handles_increase "/x" 5 1 []).1
    (Or.inl (by decide))
  have h2 := (open_rejects_writes_and_handles_increase "/x" 5 0 []).2.1
    ⟨by decide, by decide⟩
  have h3 := (open_rejects_writes_and_handles_increase "/a" 0 0
    [("/a", 0), ("/b", 2), ("/c", 0)]).2.2
  exact ⟨h1.1, h1.2, h2, h3.1, h3.2⟩

/-- C9. open never inspects or validates its path: any two paths get the
same outcome, and a read-only open succeeds with a fresh handle on every
path, including paths that name no partition; existence is only checked
later by getattr and read. -/
theorem open_ignores_path (p q : String) (fd flags : Nat) :
    fuseOpen p fd flags = fuseOpen q fd flags
    ∧ (flags &&& (O_RDONLY ||| O_WRONLY ||| O_RDWR) = O_RDONLY →
        fuseOpen p fd flags = .ok (fd + 1, fd + 1)) := by
  constructor
  · rfl
  · intro hro
    unfold fuseOpen
    rw [if_neg (fun hC => hC hro)]

/-- Witness for C9: a read-only open of a path that names no partition
succeeds with a fresh handle, and behaves exactly like the root path. -/
theorem open_ignores_path_witness :
    fuseOpen "/no-such-partition" 0 0 = .ok (1, 1)
    ∧ fuseOpen "/no-such-partition" 0 0 = fuseOpen "/" 0 0 :=
  ⟨(open_ignores_path "/no-such-partition" "/" 0 0).2 (by decide),
   (open_ignores_path "/no-such-partition" "/" 0 0).1⟩

end Vdisk
